import Mathlib
set_option maxRecDepth 40000
set_option maxHeartbeats 1000000

/-!
Verification of the LessUp/Encoding codec family (C++ sources) against its
natural-language specification.

The four codecs (RLE, Huffman, Arithmetic, Range) are shallowly embedded:
byte streams are `List Nat` (each element a byte value `0..255`), files are
read/written as whole byte lists, machine integers are `Nat` with explicit
`% 2^32` / `% 2^64` where the C++ relies on unsigned wraparound, and
fallible decoders return explicit result types carrying the output bytes
that had already been written when the error was detected (the C++ writes
its output progressively to the sink).

Sources embedded:
  - src/Run-Length/cpp/main.cpp (rle_encode_file / rle_decode_file)
  - src/huffman/cpp/main.cpp (BitWriter, BitReader, build_tree, build_codes,
    compress_file, decompress_file)
  - src/arithmetic/cpp/main.cpp (scale_frequencies, build_cumulative,
    ArithmeticEncoder, compress_file; the decoder's binary search)
  - src/range/cpp/main.cpp (range_coder::encode / decode, read_header)
-/

namespace Encoding

/-! ## Little-endian 32-bit helpers (shared framing discipline) -/

/-- `write_u32_le` emits four bytes low-to-high (RLE `write_u32_le`,
range `write_u32_le`, and the byte image of the `ostream::write` of a
little-endian `uint32_t` in the Huffman/arithmetic headers). -/
def write_u32_le (v : Nat) : List Nat :=
  [v % 256, v / 256 % 256, v / 65536 % 256, v / 16777216 % 256]

/-- Concatenation of the per-element byte encodings (the loops that write one
`u32` per frequency entry). -/
def concatMap (f : Nat → List Nat) : List Nat → List Nat
  | [] => []
  | x :: xs => f x ++ concatMap f xs

/-- Reassemble a `u32` from four bytes at `pos` (range `read_u32_le`,
without the bounds check). -/
def parse_u32_le (l : List Nat) (pos : Nat) : Nat :=
  l.getD pos 0 + 256 * l.getD (pos + 1) 0 + 65536 * l.getD (pos + 2) 0 +
    16777216 * l.getD (pos + 3) 0

/-- Bounds-checked `u32` read (range `read_u32_le`: fails when fewer than four
bytes remain, otherwise yields the value and the advanced position). -/
def read_u32_le (l : List Nat) (pos : Nat) : Option (Nat × Nat) :=
  if pos + 4 ≤ l.length then some (parse_u32_le l pos, pos + 4) else none

/-- Read `n` consecutive `u32` values starting at `pos` (the frequency-table
reading loops of the range and Huffman/arithmetic decoders). -/
def readFreqs (l : List Nat) (pos : Nat) : Nat → Option (Nat × List Nat)
  | 0 => some (pos, [])
  | n + 1 =>
    (read_u32_le l pos).bind fun p =>
      (readFreqs l p.2 n).map fun q => (q.1, p.1 :: q.2)

/-! ## Run-Length codec (src/Run-Length/cpp/main.cpp) -/

/-- The encoder loop of `rle_encode_file`: `(current, count)` scans the rest of
the input, emitting a `(count, value)` record when the run breaks or the `u32`
counter saturates. -/
def rleGo (current count : Nat) : List Nat → List Nat
  | [] => write_u32_le count ++ [current]
  | b :: rest =>
    if b = current ∧ count < 4294967295 then rleGo current (count + 1) rest
    else write_u32_le count ++ [current] ++ rleGo b 1 rest

/-- `rle_encode_file`: empty input encodes to an empty file; otherwise start a
run at the first byte. -/
def rle_encode : List Nat → List Nat
  | [] => []
  | b :: rest => rleGo b 1 rest

/-- Outcome of `rle_decode_file`, carrying the bytes already written to the
output sink when the decoder stopped. `truncated` is the "RLE 数据截断" paths
(partial count field or missing value byte); `corrupt` is the `count == 0`
path. -/
inductive RleResult where
  | ok (out : List Nat)
  | truncated (out : List Nat)
  | corrupt (out : List Nat)
  deriving DecidableEq, Repr

/-- Prefix the already-written output onto a later outcome (the decoder writes
each record's expansion before reading the next record). -/
def rleResultPrepend (pre : List Nat) : RleResult → RleResult
  | .ok out => .ok (pre ++ out)
  | .truncated out => .truncated (pre ++ out)
  | .corrupt out => .corrupt (pre ++ out)

/-- `rle_decode_file`: repeatedly read a little-endian `u32` count and a value
byte; a clean EOF between records is success, a partial count field (1–3 bytes)
is truncation, a zero count is corruption, a missing value byte is
truncation. -/
def rle_decode : List Nat → RleResult
  | [] => .ok []
  | [_] => .truncated []
  | [_, _] => .truncated []
  | [_, _, _] => .truncated []
  | c0 :: c1 :: c2 :: c3 :: rest =>
    let count := c0 + 256 * c1 + 65536 * c2 + 16777216 * c3
    if count = 0 then .corrupt []
    else
      match rest with
      | [] => .truncated []
      | v :: rest2 => rleResultPrepend (List.replicate count v) (rle_decode rest2)

/-- Byte image of one `(count, value)` record. -/
def encodeRec (r : Nat × Nat) : List Nat := write_u32_le r.1 ++ [r.2]

/-- Byte image of a record sequence (the general shape of a valid RLE file). -/
def encodeRecords : List (Nat × Nat) → List Nat
  | [] => []
  | r :: rs => encodeRec r ++ encodeRecords rs

/-- The byte sequence a record sequence decodes to. -/
def expandRecords : List (Nat × Nat) → List Nat
  | [] => []
  | r :: rs => List.replicate r.1 r.2 ++ expandRecords rs

/-- A well-formed record list: positive counts that fit in a `u32`, byte
values. -/
def ValidRecs (recs : List (Nat × Nat)) : Prop :=
  ∀ r ∈ recs, 1 ≤ r.1 ∧ r.1 < 4294967296 ∧ r.2 < 256

instance (recs : List (Nat × Nat)) : Decidable (ValidRecs recs) := by
  unfold ValidRecs; infer_instance

/-! ## Bit I/O layer (BitWriter / BitReader, identical in the Huffman and
arithmetic sources) -/

/-- `BitWriter` state: emitted bytes, the 8-bit accumulator, and the count of
bits held (`buffer`, `bitsInBuffer`). -/
structure WriterState where
  out : List Nat
  buffer : Nat
  bitsInBuffer : Nat
  deriving DecidableEq, Repr

/-- `BitWriter::write_bit`: shift the accumulator left, OR in `bit & 1`
(the accumulator is a `uint8_t`, hence the `% 256`), and emit a byte once
eight bits are held. -/
def write_bit (s : WriterState) (bit : Nat) : WriterState :=
  let buf := (s.buffer * 2 + bit % 2) % 256
  if s.bitsInBuffer + 1 = 8 then ⟨s.out ++ [buf], 0, 0⟩
  else ⟨s.out, buf, s.bitsInBuffer + 1⟩

/-- `BitWriter::flush`: left-justify and emit a final partial byte, if any. -/
def flushWriter (s : WriterState) : WriterState :=
  if s.bitsInBuffer > 0 then ⟨s.out ++ [s.buffer * 2 ^ (8 - s.bitsInBuffer) % 256], 0, 0⟩
  else s

/-- Write a list of bits in order (the C++ call sites loop over `write_bit`). -/
def writeBits (s : WriterState) (bits : List Nat) : WriterState :=
  bits.foldl write_bit s

/-- The byte stream produced by writing `bits` from a fresh writer and
flushing. -/
def bitWriterOutput (bits : List Nat) : List Nat :=
  (flushWriter (writeBits ⟨[], 0, 0⟩ bits)).out

/-- `BitReader` state: unread input bytes, the current byte, remaining bit
count, and the sticky EOF flag. -/
structure ReaderState where
  input : List Nat
  currentByte : Nat
  bitsRemaining : Nat
  reachedEof : Bool
  deriving DecidableEq, Repr

/-- A fresh reader over a byte list. -/
def mkReader (bytes : List Nat) : ReaderState := ⟨bytes, 0, 0, false⟩

/-- `BitReader::read_bit`: load a new byte when no bits remain; on source EOF
set the flag and return 0; otherwise return the bits of the current byte
MSB-first. -/
def read_bit (s : ReaderState) : Nat × ReaderState :=
  if s.bitsRemaining = 0 then
    match s.input with
    | [] => (0, { s with reachedEof := true })
    | c :: rest => (c / 2 ^ 7 % 2, ⟨rest, c, 7, s.reachedEof⟩)
  else
    (s.currentByte / 2 ^ (s.bitsRemaining - 1) % 2, { s with bitsRemaining := s.bitsRemaining - 1 })

/-- Read `n` bits in order. -/
def readBits : Nat → ReaderState → List Nat × ReaderState
  | 0, s => ([], s)
  | n + 1, s =>
    let p := read_bit s
    let q := readBits n p.2
    (p.1 :: q.1, q.2)

/-! ## Static model layer -/

/-- `SYMBOL_LIMIT` (257 symbols: bytes 0–255 plus EOS at index 256). -/
def SYMBOL_LIMIT : Nat := 257

/-- `EOF_SYMBOL = SYMBOL_LIMIT - 1 = 256`. -/
def EOF_SYMBOL : Nat := 256

/-- `MAX_TOTAL = 1 << 24`. -/
def MAX_TOTAL : Nat := 16777216

/-- `build_frequencies_from_file` / `build_frequencies_from_data` without the
final `freq[256] = 1` store: one `uint32_t` counter per byte value,
incremented with 32-bit wraparound. -/
def countFold (input : List Nat) : List Nat :=
  input.foldl (fun t b => t.set b ((t.getD b 0 + 1) % 4294967296)) (List.replicate 257 0)

/-- The unscaled frequency table of an input: per-byte counts, then
`freq[EOF_SYMBOL] = 1`. -/
def countFreqs (input : List Nat) : List Nat :=
  (countFold input).set 256 1

/-- `scale_frequencies` (identical in src/arithmetic and src/range): if the
total exceeds `MAX_TOTAL`, replace every nonzero entry by
`max 1 (freq * MAX_TOTAL / total)`; an all-zero table becomes all-ones; a
zero rescaled total (dead in practice) becomes a flat table. -/
def scale_frequencies (freq : List Nat) : List Nat :=
  let total := freq.sum
  if total = 0 then List.replicate freq.length 1
  else if total ≤ MAX_TOTAL then freq
  else
    let scaled := freq.map (fun f => if f = 0 then 0 else max 1 (f * MAX_TOTAL / total))
    if scaled.sum = 0 then List.replicate freq.length (max 1 (MAX_TOTAL / freq.length))
    else scaled

/-- The running prefix sums of `build_cumulative` (`uint32_t` additions, hence
the `% 2^32`). -/
def cumFrom (acc : Nat) : List Nat → List Nat
  | [] => [acc]
  | f :: rest => acc :: cumFrom ((acc + f) % 4294967296) rest

/-- `build_cumulative`: prefix-sum the frequencies; if the final total is zero,
substitute `(0, 1, 2, …, n)`. -/
def build_cumulative (freq : List Nat) : List Nat :=
  let c := cumFrom 0 freq
  if c.getD freq.length 0 = 0 then List.range (freq.length + 1) else c

/-! ## The decoders' symbol lookup (ArithmeticDecoder::decode_symbol /
RangeDecoder::decode_symbol, identical binary search) -/

/-- The `while (lo + 1 < hi)` binary-search loop over the cumulative table,
as structural recursion on a fuel that bounds the interval width. Each pass
shrinks `hi - lo` by at least one, so with fuel `hi - lo` the zero-fuel case
coincides with the loop's exit condition and the function equals the loop on
every input. -/
def searchGoFuel : Nat → List Nat → Nat → Nat → Nat → Nat
  | 0, _, _, lo, _ => lo
  | fuel + 1, c, v, lo, hi =>
    if lo + 1 < hi then
      if c.getD (lo + (hi - lo) / 2) 0 > v then searchGoFuel fuel c v lo (lo + (hi - lo) / 2)
      else searchGoFuel fuel c v (lo + (hi - lo) / 2) hi
    else lo

/-- The binary-search loop. -/
def searchGo (c : List Nat) (v : Nat) (lo hi : Nat) : Nat :=
  searchGoFuel (hi - lo) c v lo hi

/-- Symbol lookup: search with `lo = 0`, `hi = cumulative.size() - 1`. -/
def decode_symbol_search (c : List Nat) (v : Nat) : Nat :=
  searchGo c v 0 (c.length - 1)

/-! ## Huffman codec (src/huffman/cpp/main.cpp) -/

/-- A `Node*`: either the null pointer or a node carrying symbol, frequency
and two child pointers. -/
inductive HTree where
  | nil
  | node (symbol : Nat) (freq : Nat) (left right : HTree)
  deriving DecidableEq, Repr

/-- The `symbol` field (never read through a null pointer in the source). -/
def nodeSymbol : HTree → Nat
  | .nil => 0
  | .node s _ _ _ => s

/-- The `freq` field. -/
def nodeFreq : HTree → Nat
  | .nil => 0
  | .node _ f _ _ => f

/-- The `left` pointer. -/
def nodeLeft : HTree → HTree
  | .nil => .nil
  | .node _ _ l _ => l

/-- The `right` pointer. -/
def nodeRight : HTree → HTree
  | .nil => .nil
  | .node _ _ _ r => r

/-- `is_leaf`: both children null. -/
def isLeaf : HTree → Bool
  | .node _ _ .nil .nil => true
  | _ => false

/-- `NodeCmp::operator()`: `true` when `a` has lower priority than `b`
(`std::priority_queue` pops the element that is maximal under this
comparator, i.e. lowest frequency, ties to the lower symbol). -/
def nodeCmp (a b : HTree) : Bool :=
  if nodeFreq a ≠ nodeFreq b then nodeFreq a > nodeFreq b
  else nodeSymbol a > nodeSymbol b

/-- The priority queue as a list whose head pops first: insert `n` before the
first element strictly below it. -/
def pqInsert (n : HTree) : List HTree → List HTree
  | [] => [n]
  | m :: rest => if nodeCmp m n then n :: m :: rest else m :: pqInsert n rest

theorem pqInsert_length (n : HTree) (q : List HTree) :
    (pqInsert n q).length = q.length + 1 := by
  induction q with
  | nil => rfl
  | cons m rest ih =>
    simp only [pqInsert]
    by_cases h : nodeCmp m n
    · simp [h]
    · simp [h, ih]

/-- The `while (pq.size() > 1)` merge loop of `build_tree`: pop the two
highest-priority nodes, reinsert a parent with their summed frequency,
first-popped on the left. Structural recursion on a fuel; each merge shrinks
the queue by exactly one, so the `buildLoop` wrapper's fuel (the queue
length) never runs out and the zero-fuel case is unreachable. -/
def buildLoopFuel : Nat → List HTree → HTree
  | _, [] => .nil
  | _, [n] => n
  | 0, _ :: _ :: _ => .nil
  | fuel + 1, a :: b :: rest =>
    buildLoopFuel fuel (pqInsert (.node 0 (nodeFreq a + nodeFreq b) a b) rest)

/-- The merge loop run to completion. -/
def buildLoop (q : List HTree) : HTree := buildLoopFuel q.length q

/-- `build_tree`: push the nonzero-frequency symbols (in symbol order); an
empty queue yields a bare EOS leaf; a singleton is wrapped under a parent
whose only child is the leaf; then merge until one node remains. -/
def build_tree (freq : List Nat) : HTree :=
  let pq := (List.range 257).foldl
    (fun q s => if freq.getD s 0 = 0 then q
                else pqInsert (.node s (freq.getD s 0) .nil .nil) q) []
  match pq with
  | [] => .node 256 1 .nil .nil
  | [only] => buildLoop (pqInsert (.node 0 (nodeFreq only) only .nil) [])
  | q => buildLoop q

/-- `build_codes`: depth-first traversal, 0 on left descent, 1 on right; a
leaf records the prefix (or the one-bit code `[0]` when the prefix is
empty). -/
def build_codes : HTree → List Nat → List (List Nat) → List (List Nat)
  | .nil, _, codes => codes
  | .node s f l r, prefix_, codes =>
    if isLeaf (.node s f l r) then
      codes.set s (if prefix_ = [] then [0] else prefix_)
    else
      build_codes r (prefix_ ++ [1]) (build_codes l (prefix_ ++ [0]) codes)

/-- `compress_file`: magic `HFMN`, `u32` count 257, the 257 raw frequencies,
then the per-byte code bits followed by the EOS code, flushed. -/
def huffman_encode (input : List Nat) : List Nat :=
  let freq := countFreqs input
  let root := build_tree freq
  let codes := build_codes root [] (List.replicate 257 [])
  let header := [72, 70, 77, 78] ++ write_u32_le 257 ++ concatMap write_u32_le freq
  let w := input.foldl (fun w b => writeBits w (codes.getD b [])) (⟨[], 0, 0⟩ : WriterState)
  let w := writeBits w (codes.getD 256 [])
  header ++ (flushWriter w).out

/-- Outcome of `decompress_file`: `badHeader` covers the bad-magic, bad-count
and truncated-header `return false` paths; `corrupt` carries the bytes
already written when the walker hit a null child or ran out of bits without
seeing EOS; `fuelOut` is an artifact of the bounded model and is unreachable
for the fuel the decoder supplies. -/
inductive HuffResult where
  | ok (out : List Nat)
  | corrupt (out : List Nat)
  | badHeader
  | fuelOut
  deriving DecidableEq, Repr

/-- The decoder's tree-walking loop: read a bit, descend (0 left, 1 right);
a null child is corruption; an EOS leaf is success; another leaf emits its
byte and resets to the root, where bit-reader EOF without EOS is
corruption. -/
def walkLoop (root : HTree) : Nat → ReaderState → HTree → List Nat → HuffResult
  | 0, _, _, _ => .fuelOut
  | fuel + 1, rs, n, out =>
    let p := read_bit rs
    match (if p.1 = 0 then nodeLeft n else nodeRight n) with
    | .nil => .corrupt out
    | child =>
      if isLeaf child then
        if nodeSymbol child = 256 then .ok out
        else
          if p.2.reachedEof then .corrupt (out ++ [nodeSymbol child])
          else walkLoop root fuel p.2 root (out ++ [nodeSymbol child])
      else walkLoop root fuel p.2 child out

/-- `decompress_file`: verify magic `HFMN`, read and check the count, read the
257 frequencies, rebuild the tree, and walk the bit stream. -/
def huffman_decode (input : List Nat) : HuffResult :=
  if input.take 4 ≠ [72, 70, 77, 78] ∨ input.length < 4 then .badHeader
  else
    (read_u32_le input 4).elim .badHeader fun p =>
      if p.1 ≠ 257 then .badHeader
      else
        (readFreqs input p.2 257).elim .badHeader fun q =>
          let root := build_tree q.2
          let payload := input.drop q.1
          walkLoop root (8 * payload.length + 1024) (mkReader payload) root []

/-! ## Arithmetic codec (src/arithmetic/cpp/main.cpp), encoder side -/

/-- `FULL_RANGE = 1 << 32`. -/
def FULL_RANGE : Nat := 4294967296

/-- `HALF_RANGE`. -/
def HALF_RANGE : Nat := 2147483648

/-- `FIRST_QUARTER`. -/
def FIRST_QUARTER : Nat := 1073741824

/-- `THIRD_QUARTER`. -/
def THIRD_QUARTER : Nat := 3221225472

/-- Wrapping 64-bit subtraction (the state registers are `uint64_t`). -/
def sub64 (a b : Nat) : Nat := (a + 18446744073709551616 - b % 18446744073709551616) % 18446744073709551616

/-- `ArithmeticEncoder` state. -/
structure AEnc where
  w : WriterState
  low : Nat
  high : Nat
  pendingBits : Nat
  deriving DecidableEq, Repr

/-- `ArithmeticEncoder::output_bit`: emit the bit, then `pendingBits` copies of
its complement. -/
def ae_output_bit (e : AEnc) (bit : Nat) : AEnc :=
  let w := write_bit e.w bit
  let w := writeBits w (List.replicate e.pendingBits ((bit % 2) ^^^ 1))
  { e with w := w, pendingBits := 0 }

/-- The encoder's renormalization loop. The interval width strictly grows each
pass and the guards bound it by `HALF_RANGE`, so at most 32 passes run; the
fuel is sized far above that. -/
def ae_renorm : Nat → AEnc → AEnc
  | 0, e => e
  | fuel + 1, e =>
    if e.high < HALF_RANGE then
      let e := ae_output_bit e 0
      ae_renorm fuel { e with low := e.low * 2 % 18446744073709551616,
                              high := (e.high * 2 + 1) % 18446744073709551616 }
    else if e.low ≥ HALF_RANGE then
      let e := ae_output_bit e 1
      ae_renorm fuel { e with low := sub64 e.low HALF_RANGE * 2 % 18446744073709551616,
                              high := (sub64 e.high HALF_RANGE * 2 + 1) % 18446744073709551616 }
    else if e.low ≥ FIRST_QUARTER ∧ e.high < THIRD_QUARTER then
      ae_renorm fuel { e with pendingBits := e.pendingBits + 1,
                              low := sub64 e.low FIRST_QUARTER * 2 % 18446744073709551616,
                              high := (sub64 e.high FIRST_QUARTER * 2 + 1) % 18446744073709551616 }
    else e

/-- `ArithmeticEncoder::encode_symbol`: narrow `[low, high]` to the symbol's
cumulative slice, then renormalize. -/
def ae_encode_symbol (cum : List Nat) (e : AEnc) (symbol : Nat) : AEnc :=
  let range := (sub64 e.high e.low + 1) % 18446744073709551616
  let total := cum.getD (cum.length - 1) 0
  let symLow := cum.getD symbol 0
  let symHigh := cum.getD (symbol + 1) 0
  let high := sub64 ((e.low + range * symHigh % 18446744073709551616 / total) % 18446744073709551616) 1
  let low := (e.low + range * symLow % 18446744073709551616 / total) % 18446744073709551616
  ae_renorm 64 { e with low := low, high := high }

/-- `ArithmeticEncoder::finish`: one more pending bit, the disambiguating bit,
and a flush. -/
def ae_finish (e : AEnc) : AEnc :=
  let e := { e with pendingBits := e.pendingBits + 1 }
  let e := if e.low < FIRST_QUARTER then ae_output_bit e 0 else ae_output_bit e 1
  { e with w := flushWriter e.w }

/-- Arithmetic `compress_file`: magic `AENC`, count, the scaled frequencies,
then the coded bit stream for the input followed by EOS. -/
def arith_encode (input : List Nat) : List Nat :=
  let freq := scale_frequencies (countFreqs input)
  let cum := build_cumulative freq
  let header := [65, 69, 78, 67] ++ write_u32_le 257 ++ concatMap write_u32_le freq
  let e0 : AEnc := ⟨⟨[], 0, 0⟩, 0, FULL_RANGE - 1, 0⟩
  let e1 := input.foldl (fun e b => ae_encode_symbol cum e b) e0
  let e2 := ae_encode_symbol cum e1 256
  (header ++ (ae_finish e2).w.out)

/-! ## Range codec (src/range/cpp/main.cpp) -/

/-- `RENORM_THRESHOLD = 1 << 24`. -/
def RENORM_THRESHOLD : Nat := 16777216

/-- `range_coder::write_header`: magic `RCNC`, `u32` count, the entries. -/
def range_header (freq : List Nat) : List Nat :=
  [82, 67, 78, 67] ++ write_u32_le freq.length ++ concatMap write_u32_le freq

/-- `range_coder::read_header`: check size and magic, read the count (must be
in `1..1024`), read `count` frequencies; returns the position past the
header. -/
def range_read_header (l : List Nat) : Option (Nat × List Nat) :=
  if l.length < 8 then none
  else if l.take 4 ≠ [82, 67, 78, 67] then none
  else
    (read_u32_le l 4).bind fun p =>
      if p.1 = 0 ∨ p.1 > 1024 then none
      else (readFreqs l p.2 p.1).map fun q => (8 + 4 * p.1, q.2)

/-- `RangeEncoder` state (`low_`, `high_` are `uint32_t`). -/
structure REnc where
  out : List Nat
  low : Nat
  high : Nat
  deriving DecidableEq, Repr

/-- The range encoder's renormalization: while the top bytes of `low` and
`high` agree (`(low XOR high) < 2^24`), emit the top byte of `low` and shift.
Each pass multiplies the XOR by 256 (plus 255), so at most four passes run;
the fuel is sized above that. -/
def re_renorm : Nat → REnc → REnc
  | 0, e => e
  | fuel + 1, e =>
    if e.low ^^^ e.high < RENORM_THRESHOLD then
      re_renorm fuel ⟨e.out ++ [e.low / 16777216], e.low * 256 % 4294967296,
        (e.high * 256 % 4294967296) ||| 255⟩
    else e

/-- `RangeEncoder::encode_symbol`: same interval update as the arithmetic
coder, truncated back to `uint32_t`, then byte renormalization. -/
def re_encode_symbol (cum : List Nat) (e : REnc) (symbol : Nat) : REnc :=
  let range := (sub64 e.high e.low + 1) % 18446744073709551616
  let total := cum.getD (cum.length - 1) 0
  let symLow := cum.getD symbol 0
  let symHigh := cum.getD (symbol + 1) 0
  let high := (e.low + sub64 (range * symHigh % 18446744073709551616 / total) 1 % 4294967296) % 4294967296
  let low := (e.low + range * symLow % 18446744073709551616 / total % 4294967296) % 4294967296
  re_renorm 8 { e with low := low, high := high }

/-- `RangeEncoder::finish`: emit the four bytes of `low` MSB-first. -/
def re_finish (e : REnc) : REnc :=
  let e : REnc := ⟨e.out ++ [e.low / 16777216], e.low * 256 % 4294967296, e.high⟩
  let e : REnc := ⟨e.out ++ [e.low / 16777216], e.low * 256 % 4294967296, e.high⟩
  let e : REnc := ⟨e.out ++ [e.low / 16777216], e.low * 256 % 4294967296, e.high⟩
  ⟨e.out ++ [e.low / 16777216], e.low * 256 % 4294967296, e.high⟩

/-- `range_coder::encode`: header, per-byte symbols, EOS, tail bytes. -/
def range_encode (data : List Nat) : List Nat :=
  let freq := scale_frequencies (countFreqs data)
  let cum := build_cumulative freq
  let e0 : REnc := ⟨range_header freq, 0, 4294967295⟩
  let e1 := data.foldl (fun e b => re_encode_symbol cum e b) e0
  (re_finish (re_encode_symbol cum e1 256)).out

/-- `RangeDecoder` state over the payload bytes. -/
structure RDec where
  data : List Nat
  pos : Nat
  low : Nat
  high : Nat
  code : Nat
  deriving DecidableEq, Repr

/-- `RangeDecoder::read_byte`: next payload byte, or 0 past the end. -/
def rd_read_byte (d : RDec) : Nat × RDec :=
  if d.pos < d.data.length then (d.data.getD d.pos 0, { d with pos := d.pos + 1 })
  else (0, d)

/-- The range decoder's renormalization (same guard as the encoder, shifting
a fresh byte into `code`). -/
def rd_renorm : Nat → RDec → RDec
  | 0, d => d
  | fuel + 1, d =>
    if d.low ^^^ d.high < RENORM_THRESHOLD then
      let p := rd_read_byte d
      rd_renorm fuel { p.2 with low := d.low * 256 % 4294967296,
                                high := (d.high * 256 % 4294967296) ||| 255,
                                code := (d.code * 256 % 4294967296) ||| p.1 }
    else d

/-- `RangeDecoder` constructor: load four bytes into `code`. -/
def rd_init (bytes : List Nat) : RDec :=
  let d : RDec := ⟨bytes, 0, 0, 4294967295, 0⟩
  let p1 := rd_read_byte d
  let d := { p1.2 with code := p1.2.code * 256 % 4294967296 ||| p1.1 }
  let p2 := rd_read_byte d
  let d := { p2.2 with code := p2.2.code * 256 % 4294967296 ||| p2.1 }
  let p3 := rd_read_byte d
  let d := { p3.2 with code := p3.2.code * 256 % 4294967296 ||| p3.1 }
  let p4 := rd_read_byte d
  { p4.2 with code := p4.2.code * 256 % 4294967296 ||| p4.1 }

/-- `RangeDecoder::decode_symbol`: recover `value`, binary-search the symbol,
update the interval, renormalize. -/
def rd_decode_symbol (cum : List Nat) (d : RDec) : Nat × RDec :=
  let range := (sub64 d.high d.low + 1) % 18446744073709551616
  let total := cum.getD (cum.length - 1) 0
  let offset := sub64 d.code d.low
  let value := (sub64 ((offset + 1) * total % 18446744073709551616) 1) / range
  let symbol := decode_symbol_search cum value
  let symLow := cum.getD symbol 0
  let symHigh := cum.getD (symbol + 1) 0
  let high := (d.low + sub64 (range * symHigh % 18446744073709551616 / total) 1 % 4294967296) % 4294967296
  let low := (d.low + range * symLow % 18446744073709551616 / total % 4294967296) % 4294967296
  (symbol, rd_renorm 8 { d with low := low, high := high })

/-- Outcome of `range_coder::decode`; `headerError` covers the two
`runtime_error` throws, `fuelOut` is the bounded model's artifact for the
decoder loop (which the C++ does not bound). -/
inductive RangeResult where
  | ok (out : List Nat)
  | headerError
  | fuelOut
  deriving DecidableEq, Repr

/-- The decoder's symbol loop: stop at EOS, otherwise emit the low byte of the
symbol. -/
def rd_loop (cum : List Nat) : Nat → RDec → List Nat → RangeResult
  | 0, _, _ => .fuelOut
  | fuel + 1, d, out =>
    let p := rd_decode_symbol cum d
    if p.1 = 256 then .ok out
    else rd_loop cum fuel p.2 (out ++ [p.1 % 256])

/-- `range_coder::decode`: parse the header, require 257 entries, build the
cumulative table; an empty payload yields an empty output without entering
the decoder; otherwise run the symbol loop. -/
def range_decode (encoded : List Nat) : RangeResult :=
  (range_read_header encoded).elim .headerError fun pf =>
    if pf.2.length ≠ 257 then .headerError
    else
      let cum := build_cumulative pf.2
      if encoded.length ≤ pf.1 then .ok []
      else rd_loop cum (8 * encoded.length + 1024) (rd_init (encoded.drop pf.1)) []

/-! ## Helper lemmas -/

theorem parse_u32_write (pre : List Nat) (v : Nat) (suf : List Nat) (hv : v < 4294967296) :
    parse_u32_le (pre ++ (write_u32_le v ++ suf)) pre.length = v := by
  have h0 : (pre ++ (write_u32_le v ++ suf)).getD pre.length 0 = v % 256 := by
    rw [List.getD_append_right _ _ _ _ (Nat.le_refl _)]
    simp [write_u32_le]
  have h1 : (pre ++ (write_u32_le v ++ suf)).getD (pre.length + 1) 0 = v / 256 % 256 := by
    rw [List.getD_append_right _ _ _ _ (Nat.le_add_right _ _)]
    simp [write_u32_le]
  have h2 : (pre ++ (write_u32_le v ++ suf)).getD (pre.length + 2) 0 = v / 65536 % 256 := by
    rw [List.getD_append_right _ _ _ _ (Nat.le_add_right _ _)]
    simp [write_u32_le]
  have h3 : (pre ++ (write_u32_le v ++ suf)).getD (pre.length + 3) 0 = v / 16777216 % 256 := by
    rw [List.getD_append_right _ _ _ _ (Nat.le_add_right _ _)]
    simp [write_u32_le]
  rw [parse_u32_le, h0, h1, h2, h3]
  omega

theorem read_u32_write (pre : List Nat) (v : Nat) (suf : List Nat) (hv : v < 4294967296) :
    read_u32_le (pre ++ (write_u32_le v ++ suf)) pre.length = some (v, pre.length + 4) := by
  rw [read_u32_le, if_pos, parse_u32_write pre v suf hv]
  simp [write_u32_le]

theorem readFreqs_write (fs : List Nat) (hv : ∀ v ∈ fs, v < 4294967296)
    (pre suf : List Nat) :
    readFreqs (pre ++ (concatMap write_u32_le fs ++ suf)) pre.length fs.length
      = some (pre.length + 4 * fs.length, fs) := by
  induction fs generalizing pre with
  | nil => simp [readFreqs, concatMap]
  | cons v fs ih =>
    have hv0 : v < 4294967296 := hv v (List.mem_cons_self _ _)
    have hrest : ∀ x ∈ fs, x < 4294967296 := fun x hx => hv x (List.mem_cons_of_mem _ hx)
    have hassoc : pre ++ (concatMap write_u32_le (v :: fs) ++ suf)
        = pre ++ (write_u32_le v ++ (concatMap write_u32_le fs ++ suf)) := by
      simp [concatMap]
    have hassoc2 : pre ++ (write_u32_le v ++ (concatMap write_u32_le fs ++ suf))
        = (pre ++ write_u32_le v) ++ (concatMap write_u32_le fs ++ suf) := by
      simp
    have hlen : (pre ++ write_u32_le v).length = pre.length + 4 := by
      simp [write_u32_le]
    rw [hassoc, List.length_cons, readFreqs,
      read_u32_write pre v (concatMap write_u32_le fs ++ suf) hv0]
    have := ih hrest (pre ++ write_u32_le v)
    rw [hlen] at this
    rw [List.append_assoc] at this
    simp only [Option.some_bind, this, Option.map_some']
    have harith : pre.length + 4 + 4 * fs.length = pre.length + 4 * (fs.length + 1) := by omega
    rw [harith]

/-! ## C7: RLE zero-count records are corruption -/

/-- C7: decoding any stream formed of well-formed records followed by a record
whose 32-bit count field is zero returns a Corrupt-stream error, with only the
preceding records' output emitted (nothing for the zero-count record). -/
theorem rle_zero_count_corrupt (recs : List (Nat × Nat)) (hrecs : ValidRecs recs)
    (v : Nat) (suffix : List Nat) :
    rle_decode (encodeRecords recs ++ (0 :: 0 :: 0 :: 0 :: v :: suffix))
      = .corrupt (expandRecords recs) := by
  induction recs with
  | nil => simp [encodeRecords, expandRecords, rle_decode]
  | cons r rs ih =>
    obtain ⟨c, w⟩ := r
    have hc : 1 ≤ c ∧ c < 4294967296 := by
      have := hrecs (c, w) (List.mem_cons_self _ _)
      exact ⟨this.1, this.2.1⟩
    have hrest : ValidRecs rs := fun x hx => hrecs x (List.mem_cons_of_mem _ hx)
    have hcount : c % 256 + 256 * (c / 256 % 256) + 65536 * (c / 65536 % 256)
        + 16777216 * (c / 16777216 % 256) = c := by omega
    simp only [encodeRecords, encodeRec, write_u32_le, List.cons_append, List.nil_append,
      List.append_assoc]
    rw [rle_decode]
    simp only [hcount]
    rw [if_neg (by omega)]
    rw [ih hrest]
    simp [rleResultPrepend, expandRecords]

/-- C7 witness, the spec's concrete scenario: the five bytes
`00 00 00 00 41` decode to a Corrupt-stream error with no output. -/
theorem rle_zero_count_corrupt_witness :
    ValidRecs [] ∧ rle_decode [0, 0, 0, 0, 65] = .corrupt [] :=
  ⟨by decide, rle_zero_count_corrupt [] (by decide) 65 []⟩

/-! ## Huffman header parsing and the empty-input stream -/

theorem concatMap_write_length (fs : List Nat) :
    (concatMap write_u32_le fs).length = 4 * fs.length := by
  induction fs with
  | nil => rfl
  | cons v fs ih => simp [concatMap, write_u32_le, ih]; omega

/-- The frequency table of the empty input (and of any input whose per-byte
`u32` counters have all wrapped to zero): only the EOS entry is set. -/
def freqE : List Nat := (List.replicate 257 0).set 256 1

/-- The tree built from `freqE`: the single EOS leaf wrapped under a parent
whose right child is null. -/
def treeE : HTree := .node 0 1 (.node 256 1 .nil .nil) .nil

/-- The tree built from an all-zero table: a bare EOS leaf at the root. -/
def leafE : HTree := .node 256 1 .nil .nil

theorem build_tree_freqE : build_tree freqE = treeE := by rfl

theorem build_tree_zero : build_tree (List.replicate 257 0) = leafE := by rfl

/-- Parsing a well-formed Huffman header hands the 257 entries and the
payload to the tree walk. -/
theorem huffman_decode_header (freq payload : List Nat) (hlen : freq.length = 257)
    (hv : ∀ v ∈ freq, v < 4294967296) :
    huffman_decode ([72, 70, 77, 78] ++ write_u32_le 257 ++ concatMap write_u32_le freq ++ payload)
      = walkLoop (build_tree freq) (8 * payload.length + 1024) (mkReader payload)
          (build_tree freq) [] := by
  have hshape : [72, 70, 77, 78] ++ write_u32_le 257 ++ concatMap write_u32_le freq ++ payload
      = ([72, 70, 77, 78] : List Nat)
        ++ (write_u32_le 257 ++ (concatMap write_u32_le freq ++ payload)) := by
    simp [List.append_assoc]
  rw [hshape]
  have htake : (([72, 70, 77, 78] : List Nat)
      ++ (write_u32_le 257 ++ (concatMap write_u32_le freq ++ payload))).take 4
      = [72, 70, 77, 78] := by simp
  have hread4 : read_u32_le (([72, 70, 77, 78] : List Nat)
      ++ (write_u32_le 257 ++ (concatMap write_u32_le freq ++ payload))) 4 = some (257, 8) :=
    read_u32_write [72, 70, 77, 78] 257 (concatMap write_u32_le freq ++ payload) (by norm_num)
  have hshape2 : ([72, 70, 77, 78] : List Nat)
      ++ (write_u32_le 257 ++ (concatMap write_u32_le freq ++ payload))
      = ([72, 70, 77, 78] ++ write_u32_le 257) ++ (concatMap write_u32_le freq ++ payload) := by
    simp [List.append_assoc]
  have hreadf := readFreqs_write freq hv ([72, 70, 77, 78] ++ write_u32_le 257) payload
  rw [show (([72, 70, 77, 78] ++ write_u32_le 257 : List Nat)).length = 8 from rfl, hlen]
    at hreadf
  rw [← hshape2] at hreadf
  have hdrop : (([72, 70, 77, 78] : List Nat)
      ++ (write_u32_le 257 ++ (concatMap write_u32_le freq ++ payload))).drop (8 + 4 * 257)
      = payload := by
    have hsh : ([72, 70, 77, 78] : List Nat)
        ++ (write_u32_le 257 ++ (concatMap write_u32_le freq ++ payload))
        = (([72, 70, 77, 78] ++ write_u32_le 257) ++ concatMap write_u32_le freq) ++ payload := by
      simp [List.append_assoc]
    have hplen : ((([72, 70, 77, 78] : List Nat) ++ write_u32_le 257)
        ++ concatMap write_u32_le freq).length = 8 + 4 * 257 := by
      simp [concatMap_write_length, hlen, write_u32_le]
    rw [hsh, ← hplen, List.drop_left]
  rw [huffman_decode, if_neg (by
    simp only [htake]
    simp [write_u32_le, not_or])]
  rw [hread4]
  simp only [Option.elim_some]
  rw [if_neg (by norm_num)]
  rw [hreadf]
  simp only [Option.elim_some]
  rw [hdrop]

/-- The byte stream `compress_file` produces on empty input. -/
theorem huffman_encode_nil :
    huffman_encode []
      = [72, 70, 77, 78] ++ write_u32_le 257 ++ concatMap write_u32_le freqE ++ [0] := by
  rfl

/-! ## C3: truncation detection (corrected) -/

/-- C3 counterexample: removing the final byte of the Huffman encoding of the
empty sequence is a proper truncation by one byte, yet the truncated stream
still decodes successfully (the bit reader zero-fills past EOF and the first
zero bit reaches the EOS leaf), contradicting the claim that every proper
truncation yields a Truncation or Corrupt-stream error. -/
theorem truncation_detection_counterexample :
    (huffman_encode []).length = 1037 ∧
    huffman_decode ((huffman_encode []).take 1036) = .ok [] := by
  constructor
  · rw [huffman_encode_nil]
    simp [concatMap_write_length, freqE, write_u32_le]
  · rw [huffman_encode_nil]
    have hsh : [72, 70, 77, 78] ++ write_u32_le 257 ++ concatMap write_u32_le freqE ++ [0]
        = ([72, 70, 77, 78] ++ write_u32_le 257 ++ concatMap write_u32_le freqE) ++ [0] := by
      simp [List.append_assoc]
    have hlen1036 : (([72, 70, 77, 78] : List Nat) ++ write_u32_le 257
        ++ concatMap write_u32_le freqE).length = 1036 := by
      simp [concatMap_write_length, freqE, write_u32_le]
    have htake : ([72, 70, 77, 78] ++ write_u32_le 257 ++ concatMap write_u32_le freqE
        ++ ([0] : List Nat)).take 1036
        = [72, 70, 77, 78] ++ write_u32_le 257 ++ concatMap write_u32_le freqE := by
      rw [hsh, ← hlen1036, List.take_left]
    rw [htake]
    have hdec := huffman_decode_header freqE [] (by decide) (by decide)
    rw [List.append_nil] at hdec
    rw [hdec, build_tree_freqE]
    rfl

/-- C3 amended: for the RLE decoder, truncating a valid stream of records
detects the damage exactly when the cut does not fall on a record boundary:
a cut inside a record yields a Truncation error carrying the complete records
decoded so far, while a cut on a record boundary decodes successfully to the
surviving records' expansion. -/
theorem rle_truncation_characterization (recs : List (Nat × Nat)) (hrecs : ValidRecs recs)
    (m : Nat) (hm : m < 5 * recs.length) :
    rle_decode ((encodeRecords recs).take m)
      = if m % 5 = 0 then .ok (expandRecords (recs.take (m / 5)))
        else .truncated (expandRecords (recs.take (m / 5))) := by
  induction recs generalizing m with
  | nil => simp at hm
  | cons r rs ih =>
    obtain ⟨c, w⟩ := r
    have hc : 1 ≤ c ∧ c < 4294967296 := by
      have := hrecs (c, w) (List.mem_cons_self _ _)
      exact ⟨this.1, this.2.1⟩
    have hrest : ValidRecs rs := fun x hx => hrecs x (List.mem_cons_of_mem _ hx)
    have hcount : c % 256 + 256 * (c / 256 % 256) + 65536 * (c / 65536 % 256)
        + 16777216 * (c / 16777216 % 256) = c := by omega
    rcases m with (_ | (_ | (_ | (_ | (_ | k)))))
    · simp [rle_decode, expandRecords]
    · simp only [encodeRecords, encodeRec, write_u32_le, List.cons_append, List.nil_append,
        List.take_succ_cons, List.take_zero]
      simp [rle_decode, expandRecords]
    · simp only [encodeRecords, encodeRec, write_u32_le, List.cons_append, List.nil_append,
        List.take_succ_cons, List.take_zero]
      simp [rle_decode, expandRecords]
    · simp only [encodeRecords, encodeRec, write_u32_le, List.cons_append, List.nil_append,
        List.take_succ_cons, List.take_zero]
      simp [rle_decode, expandRecords]
    · simp only [encodeRecords, encodeRec, write_u32_le, List.cons_append, List.nil_append,
        List.take_succ_cons, List.take_zero]
      rw [rle_decode]
      simp only [hcount]
      rw [if_neg (by omega)]
      simp [expandRecords]
    · have hk : k < 5 * rs.length := by
        simp only [List.length_cons] at hm
        omega
      simp only [encodeRecords, encodeRec, write_u32_le, List.cons_append, List.nil_append,
        List.take_succ_cons]
      rw [rle_decode]
      simp only [hcount]
      rw [if_neg (by omega)]
      rw [ih hrest k hk]
      have hm5 : (k + 5) % 5 = k % 5 := by omega
      have hd5 : (k + 5) / 5 = k / 5 + 1 := by omega
      rw [hm5, hd5]
      by_cases hz : k % 5 = 0
      · simp [hz, rleResultPrepend, List.take_succ_cons, expandRecords]
      · simp [hz, rleResultPrepend, List.take_succ_cons, expandRecords]

/-- C3 amended witness: truncating the two-record stream for `[65, 66]` after
seven bytes (mid-record) yields a Truncation error with the first record's
output. -/
theorem rle_truncation_characterization_witness :
    ValidRecs [(1, 65), (1, 66)] ∧ 7 < 5 * 2 ∧
    rle_decode ((encodeRecords [(1, 65), (1, 66)]).take 7) = .truncated [65] := by
  refine ⟨by decide, by decide, ?_⟩
  have h := rle_truncation_characterization [(1, 65), (1, 66)] (by decide) 7 (by decide)
  simpa using h

/-! ## C2: frequency scaling (corrected) -/

theorem getD_le_sum (l : List Nat) (i : Nat) : l.getD i 0 ≤ l.sum := by
  induction l generalizing i with
  | nil => simp [List.getD]
  | cons x xs ih =>
    cases i with
    | zero => simp
    | succ j =>
      simp only [List.getD_cons_succ, List.sum_cons]
      exact Nat.le_trans (ih j) (Nat.le_add_left _ _)

theorem getD_map_of_lt (f : Nat → Nat) (l : List Nat) (i : Nat) (h : i < l.length) :
    (l.map f).getD i 0 = f (l.getD i 0) := by
  induction l generalizing i with
  | nil => simp at h
  | cons x xs ih =>
    cases i with
    | zero => simp
    | succ j => simpa using ih j (by simpa using h)

theorem div_add_div_le (a b T : Nat) : a / T + b / T ≤ (a + b) / T := by
  rcases Nat.eq_zero_or_pos T with h | h
  · subst h; simp
  · rw [Nat.le_div_iff_mul_le h]
    calc (a / T + b / T) * T = a / T * T + b / T * T := Nat.add_mul _ _ _
      _ ≤ a + b := Nat.add_le_add (Nat.div_mul_le_self a T) (Nat.div_mul_le_self b T)

theorem sum_map_div_le (l : List Nat) (T : Nat) :
    (l.map (fun x => x / T)).sum ≤ l.sum / T := by
  induction l with
  | nil => simp
  | cons x xs ih =>
    simp only [List.map_cons, List.sum_cons]
    calc x / T + (xs.map (fun x => x / T)).sum ≤ x / T + xs.sum / T :=
          Nat.add_le_add_left ih _
      _ ≤ (x + xs.sum) / T := div_add_div_le _ _ _

theorem sum_map_le_map_add_length (f g : Nat → Nat) (l : List Nat)
    (h : ∀ x, f x ≤ g x + 1) : (l.map f).sum ≤ (l.map g).sum + l.length := by
  induction l with
  | nil => simp
  | cons x xs ih =>
    simp only [List.map_cons, List.sum_cons, List.length_cons]
    have := h x
    omega

theorem sum_map_mul_const (l : List Nat) (M : Nat) :
    (l.map (fun x => x * M)).sum = l.sum * M := by
  induction l with
  | nil => simp
  | cons x xs ih => simp [List.sum_cons, ih, Nat.add_mul]

/-- C2 amended: for every 257-entry `u32` frequency table whose EOS entry is
nonzero, `scale_frequencies` keeps every originally-positive entry positive
and the EOS entry at least 1, and the resulting total is at most
`2^24 + 257` (the per-entry `max 1 _` floor can push the total up to the
table length beyond `MAX_TOTAL`, so the claimed bound `2^24` itself does not
hold). -/
theorem scale_frequencies_amended (freq : List Nat) (hlen : freq.length = 257)
    (heos : freq.getD 256 0 ≠ 0) (_hv : ∀ v ∈ freq, v < 4294967296) :
    (∀ i < 257, 0 < freq.getD i 0 → 0 < (scale_frequencies freq).getD i 0) ∧
    (scale_frequencies freq).sum ≤ 16777216 + 257 ∧
    1 ≤ (scale_frequencies freq).getD 256 0 := by
  have hpos : 0 < freq.sum :=
    Nat.lt_of_lt_of_le (Nat.pos_of_ne_zero heos) (getD_le_sum freq 256)
  have hM : MAX_TOTAL = 16777216 := rfl
  rw [scale_frequencies]
  simp only []
  rw [if_neg (by omega)]
  by_cases hle : freq.sum ≤ MAX_TOTAL
  · rw [if_pos hle]
    exact ⟨fun i _ h => h, by omega, Nat.pos_of_ne_zero heos⟩
  · rw [if_neg hle]
    have h256 : (freq.map
        (fun f => if f = 0 then 0 else max 1 (f * MAX_TOTAL / freq.sum))).getD 256 0
        = (if freq.getD 256 0 = 0 then 0
           else max 1 (freq.getD 256 0 * MAX_TOTAL / freq.sum)) :=
      getD_map_of_lt _ freq 256 (by omega)
    have hf256 : 1 ≤ (if freq.getD 256 0 = 0 then 0
        else max 1 (freq.getD 256 0 * MAX_TOTAL / freq.sum)) := by
      rw [if_neg heos]
      exact Nat.le_max_left _ _
    have hsum_ne : (freq.map
        (fun f => if f = 0 then 0 else max 1 (f * MAX_TOTAL / freq.sum))).sum ≠ 0 := by
      have := getD_le_sum (freq.map
        (fun f => if f = 0 then 0 else max 1 (f * MAX_TOTAL / freq.sum))) 256
      omega
    rw [if_neg hsum_ne]
    refine ⟨?_, ?_, ?_⟩
    · intro i hi hpi
      rw [getD_map_of_lt _ freq i (by omega)]
      rw [if_neg (by omega)]
      have := Nat.le_max_left 1 (freq.getD i 0 * MAX_TOTAL / freq.sum)
      omega
    · have hpt : ∀ x, (if x = 0 then 0 else max 1 (x * MAX_TOTAL / freq.sum))
          ≤ x * MAX_TOTAL / freq.sum + 1 := by
        intro x
        by_cases hx : x = 0
        · simp [hx]
        · rw [if_neg hx]
          have h1 : (1 : Nat) ≤ x * MAX_TOTAL / freq.sum + 1 :=
            Nat.succ_le_succ (Nat.zero_le _)
          have h2 : x * MAX_TOTAL / freq.sum ≤ x * MAX_TOTAL / freq.sum + 1 :=
            Nat.le_succ _
          exact Nat.max_le.mpr ⟨h1, h2⟩
      have h1 := sum_map_le_map_add_length _ (fun x => x * MAX_TOTAL / freq.sum) freq hpt
      have hcomp : freq.map (fun x => x * MAX_TOTAL / freq.sum)
          = (freq.map (fun x => x * MAX_TOTAL)).map (fun y => y / freq.sum) := by
        rw [List.map_map]
        rfl
      have h2 : (freq.map (fun x => x * MAX_TOTAL / freq.sum)).sum
          ≤ freq.sum * MAX_TOTAL / freq.sum := by
        rw [hcomp]
        have h := sum_map_div_le (freq.map (fun x => x * MAX_TOTAL)) freq.sum
        rwa [sum_map_mul_const] at h
      have h3 : freq.sum * MAX_TOTAL / freq.sum = MAX_TOTAL := by
        exact Nat.mul_div_cancel_left _ hpos
      rw [hlen] at h1
      omega
    · rw [h256]
      exact hf256

/-- C2 amended witness: the empty-input table (EOS entry 1, all others 0)
satisfies the hypotheses and the scaled conclusions. -/
theorem scale_frequencies_amended_witness :
    freqE.length = 257 ∧ freqE.getD 256 0 ≠ 0 ∧ (∀ v ∈ freqE, v < 4294967296) ∧
    ((∀ i < 257, 0 < freqE.getD i 0 → 0 < (scale_frequencies freqE).getD i 0) ∧
     (scale_frequencies freqE).sum ≤ 16777216 + 257 ∧
     1 ≤ (scale_frequencies freqE).getD 256 0) :=
  ⟨by decide, by decide, by decide,
    scale_frequencies_amended freqE (by decide) (by decide) (by decide)⟩

/-- C2 counterexample: the table with 256 entries of 1 and an EOS entry of
`2^25 - 256` is a valid input (257 `u32` counts, EOS nonzero), its total
`2^25` exceeds `MAX_TOTAL`, and after scaling the total is `2^24 + 128`,
strictly above the claimed bound `2^24`: the 256 small entries scale to
floor 0 and are bumped to 1 each, while the EOS entry scales to
`2^24 - 128`. -/
theorem scale_frequencies_sum_counterexample :
    (List.replicate 256 1 ++ [33554176]).length = 257 ∧
    (List.replicate 256 1 ++ [33554176]).getD 256 0 ≠ 0 ∧
    (∀ v ∈ List.replicate 256 1 ++ [33554176], v < 4294967296) ∧
    16777216 < (scale_frequencies (List.replicate 256 1 ++ [33554176])).sum := by
  exact ⟨by decide, by decide, by decide, by decide⟩

/-! ## C6: the decoders' binary search -/

theorem searchGoFuel_invariant (c : List Nat) (v : Nat) :
    ∀ (fuel lo hi : Nat), hi - lo ≤ fuel → lo < hi → hi < c.length →
      c.getD lo 0 ≤ v → v < c.getD hi 0 →
      lo ≤ searchGoFuel fuel c v lo hi ∧ searchGoFuel fuel c v lo hi + 1 ≤ hi ∧
      c.getD (searchGoFuel fuel c v lo hi) 0 ≤ v ∧
      v < c.getD (searchGoFuel fuel c v lo hi + 1) 0 := by
  intro fuel
  induction fuel with
  | zero => intro lo hi hfuel hlt _ _ _; omega
  | succ f ih =>
    intro lo hi hfuel hlt hhi hlo hv
    rw [searchGoFuel]
    by_cases hcond : lo + 1 < hi
    · rw [if_pos hcond]
      by_cases hc : c.getD (lo + (hi - lo) / 2) 0 > v
      · rw [if_pos hc]
        have h := ih lo (lo + (hi - lo) / 2) (by omega) (by omega) (by omega) hlo hc
        refine ⟨h.1, ?_, h.2.2.1, h.2.2.2⟩
        have := h.2.1
        omega
      · rw [if_neg hc]
        push_neg at hc
        have h := ih (lo + (hi - lo) / 2) hi (by omega) (by omega) hhi hc hv
        refine ⟨?_, h.2.1, h.2.2.1, h.2.2.2⟩
        have := h.1
        omega
    · rw [if_neg hcond]
      have hi_eq : hi = lo + 1 := by omega
      refine ⟨Nat.le_refl _, by omega, hlo, ?_⟩
      rw [← hi_eq]
      exact hv

theorem getD_mono_of_adjacent (c : List Nat)
    (hadj : ∀ i, i + 1 < c.length → c.getD i 0 ≤ c.getD (i + 1) 0) :
    ∀ (k i : Nat), i + k < c.length → c.getD i 0 ≤ c.getD (i + k) 0 := by
  intro k
  induction k with
  | zero => intro i _; exact Nat.le_refl _
  | succ n ih =>
    intro i h
    have h1 : c.getD i 0 ≤ c.getD (i + n) 0 := ih i (by omega)
    have h2 : c.getD (i + n) 0 ≤ c.getD (i + n + 1) 0 := hadj (i + n) (by omega)
    have : i + (n + 1) = i + n + 1 := by omega
    rw [this]
    exact Nat.le_trans h1 h2

/-- C6: for every monotone cumulative table of length 258 and every value with
`C[0] ≤ value < C[257]`, the decoders' binary search returns the index `s`
with `C[s] ≤ value < C[s+1]`; that `s` is the largest index whose entry is
at most `value`, and the unique index satisfying the sandwich. -/
theorem decode_symbol_search_correct (c : List Nat) (v : Nat)
    (hlen : c.length = 258)
    (hadj : ∀ i < 257, c.getD i 0 ≤ c.getD (i + 1) 0)
    (hv0 : c.getD 0 0 ≤ v) (hvtop : v < c.getD 257 0) :
    (c.getD (decode_symbol_search c v) 0 ≤ v ∧
      v < c.getD (decode_symbol_search c v + 1) 0) ∧
    (∀ t, t ≤ 257 → c.getD t 0 ≤ v → t ≤ decode_symbol_search c v) ∧
    (∀ t, t < 257 → c.getD t 0 ≤ v → v < c.getD (t + 1) 0 →
      t = decode_symbol_search c v) := by
  have hadj' : ∀ i, i + 1 < c.length → c.getD i 0 ≤ c.getD (i + 1) 0 := by
    intro i hi
    exact hadj i (by omega)
  have hs : decode_symbol_search c v = searchGoFuel 257 c v 0 257 := by
    rw [decode_symbol_search, searchGo, hlen]
  have hinv := searchGoFuel_invariant c v 257 0 257 (by omega) (by omega) (by omega) hv0 hvtop
  rw [hs]
  obtain ⟨h0, hlt, hle, hgt⟩ := hinv
  have hlargest : ∀ t, t ≤ 257 → c.getD t 0 ≤ v → t ≤ searchGoFuel 257 c v 0 257 := by
    intro t ht hct
    by_contra hgt'
    push_neg at hgt'
    have hstep : searchGoFuel 257 c v 0 257 + 1 + (t - (searchGoFuel 257 c v 0 257 + 1))
        = t := by omega
    have := getD_mono_of_adjacent c hadj' (t - (searchGoFuel 257 c v 0 257 + 1))
      (searchGoFuel 257 c v 0 257 + 1) (by omega)
    rw [hstep] at this
    omega
  refine ⟨⟨hle, hgt⟩, hlargest, ?_⟩
  intro t ht hct hctv
  have h1 : t ≤ searchGoFuel 257 c v 0 257 := hlargest t (by omega) hct
  by_contra hne
  have h2 : t + 1 ≤ searchGoFuel 257 c v 0 257 := by omega
  have hstep : t + 1 + (searchGoFuel 257 c v 0 257 - (t + 1))
      = searchGoFuel 257 c v 0 257 := by omega
  have := getD_mono_of_adjacent c hadj' (searchGoFuel 257 c v 0 257 - (t + 1)) (t + 1) (by omega)
  rw [hstep] at this
  omega

/-- C6 witness: the cumulative table `(0, 1, …, 257)` (the code's degenerate
substitute table) with `value = 100`; the search returns symbol 100. -/
theorem decode_symbol_search_correct_witness :
    ((List.range 258).length = 258 ∧
      (∀ i < 257, (List.range 258).getD i 0 ≤ (List.range 258).getD (i + 1) 0) ∧
      (List.range 258).getD 0 0 ≤ 100 ∧ 100 < (List.range 258).getD 257 0) ∧
    decode_symbol_search (List.range 258) 100 = 100 ∧
    (((List.range 258).getD (decode_symbol_search (List.range 258) 100) 0 ≤ 100 ∧
      100 < (List.range 258).getD (decode_symbol_search (List.range 258) 100 + 1) 0) ∧
    (∀ t, t ≤ 257 → (List.range 258).getD t 0 ≤ 100 →
      t ≤ decode_symbol_search (List.range 258) 100) ∧
    (∀ t, t < 257 → (List.range 258).getD t 0 ≤ 100 →
      100 < (List.range 258).getD (t + 1) 0 →
      t = decode_symbol_search (List.range 258) 100)) :=
  ⟨⟨by decide, by decide, by decide, by decide⟩, by decide,
    decode_symbol_search_correct (List.range 258) 100 (by decide) (by decide)
      (by decide) (by decide)⟩

/-! ## C8: bit writer / bit reader round trip -/

theorem writeBits_chunk (out : List Nat) (b0 b1 b2 b3 b4 b5 b6 b7 : Nat) (rest : List Nat) :
    writeBits ⟨out, 0, 0⟩ (b0 :: b1 :: b2 :: b3 :: b4 :: b5 :: b6 :: b7 :: rest)
      = writeBits ⟨out ++ [b0 % 2 * 128 + b1 % 2 * 64 + b2 % 2 * 32 + b3 % 2 * 16
          + b4 % 2 * 8 + b5 % 2 * 4 + b6 % 2 * 2 + b7 % 2], 0, 0⟩ rest := by
  simp only [writeBits, List.foldl_cons, write_bit]
  norm_num
  congr 2
  simp only [List.append_cancel_left_eq, List.cons.injEq, and_true]
  omega

theorem writeBits_cons (s : WriterState) (b : Nat) (bs : List Nat) :
    writeBits s (b :: bs) = writeBits (write_bit s b) bs := rfl

theorem writeBits_out_accum (bits : List Nat) :
    ∀ (out : List Nat) (buf k : Nat),
      writeBits ⟨out, buf, k⟩ bits
        = ⟨out ++ (writeBits ⟨[], buf, k⟩ bits).out, (writeBits ⟨[], buf, k⟩ bits).buffer,
           (writeBits ⟨[], buf, k⟩ bits).bitsInBuffer⟩ := by
  induction bits with
  | nil => intro out buf k; simp [writeBits]
  | cons b bs ih =>
    intro out buf k
    rw [writeBits_cons, writeBits_cons]
    by_cases h8 : k + 1 = 8
    · rw [show write_bit ⟨out, buf, k⟩ b = ⟨out ++ [(buf * 2 + b % 2) % 256], 0, 0⟩ from by
        simp [write_bit, h8]]
      rw [show write_bit ⟨[], buf, k⟩ b = ⟨[] ++ [(buf * 2 + b % 2) % 256], 0, 0⟩ from by
        simp [write_bit, h8]]
      rw [show ([] : List Nat) ++ [(buf * 2 + b % 2) % 256] = [(buf * 2 + b % 2) % 256] from rfl]
      rw [ih (out ++ [(buf * 2 + b % 2) % 256]) 0 0, ih [(buf * 2 + b % 2) % 256] 0 0]
      simp
    · rw [show write_bit ⟨out, buf, k⟩ b = ⟨out, (buf * 2 + b % 2) % 256, k + 1⟩ from by
        simp [write_bit, h8]]
      rw [show write_bit ⟨[], buf, k⟩ b = ⟨[], (buf * 2 + b % 2) % 256, k + 1⟩ from by
        simp [write_bit, h8]]
      exact ih out ((buf * 2 + b % 2) % 256) (k + 1)

theorem flush_writeBits_accum (pre : List Nat) (bits : List Nat) :
    (flushWriter (writeBits ⟨pre, 0, 0⟩ bits)).out
      = pre ++ (flushWriter (writeBits ⟨[], 0, 0⟩ bits)).out := by
  rw [writeBits_out_accum bits pre 0 0]
  rw [flushWriter, flushWriter]
  by_cases hk : (writeBits ⟨[], 0, 0⟩ bits).bitsInBuffer > 0
  · rw [if_pos hk, if_pos hk]
    simp
  · rw [if_neg hk, if_neg hk]

theorem bitWriterOutput_chunk (b0 b1 b2 b3 b4 b5 b6 b7 : Nat) (rest : List Nat) :
    bitWriterOutput (b0 :: b1 :: b2 :: b3 :: b4 :: b5 :: b6 :: b7 :: rest)
      = (b0 % 2 * 128 + b1 % 2 * 64 + b2 % 2 * 32 + b3 % 2 * 16
          + b4 % 2 * 8 + b5 % 2 * 4 + b6 % 2 * 2 + b7 % 2) :: bitWriterOutput rest := by
  rw [bitWriterOutput, writeBits_chunk, flush_writeBits_accum]
  rfl

theorem readBits_add (m n : Nat) (s : ReaderState) :
    readBits (m + n) s
      = ((readBits m s).1 ++ (readBits n (readBits m s).2).1,
         (readBits n (readBits m s).2).2) := by
  induction m generalizing s with
  | zero => simp [readBits]
  | succ m ih =>
    have hsm : m + 1 + n = (m + n) + 1 := by omega
    rw [hsm, readBits, readBits]
    simp only [ih (read_bit s).2]
    simp [readBits]

theorem readBits_fst_currentByte_irrel (n : Nat) :
    ∀ (inp : List Nat) (c c' : Nat) (e : Bool),
      (readBits n ⟨inp, c, 0, e⟩).1 = (readBits n ⟨inp, c', 0, e⟩).1 := by
  induction n with
  | zero => intro inp c c' e; rfl
  | succ n ih =>
    intro inp c c' e
    match inp with
    | [] =>
      rw [readBits, readBits]
      rw [show read_bit ⟨[], c, 0, e⟩ = (0, ⟨[], c, 0, true⟩) from by simp [read_bit]]
      rw [show read_bit ⟨[], c', 0, e⟩ = (0, ⟨[], c', 0, true⟩) from by simp [read_bit]]
      simp only []
      rw [List.cons.injEq]
      exact ⟨rfl, ih [] c c' true⟩
    | x :: r =>
      rw [readBits, readBits]
      rw [show read_bit ⟨x :: r, c, 0, e⟩ = (x / 2 ^ 7 % 2, ⟨r, x, 7, e⟩) from by simp [read_bit]]
      rw [show read_bit ⟨x :: r, c', 0, e⟩ = (x / 2 ^ 7 % 2, ⟨r, x, 7, e⟩) from by
        simp [read_bit]]

theorem readBits_byte (y : Nat) (c : Nat) (rest : List Nat) (e : Bool) :
    readBits 8 ⟨y :: rest, c, 0, e⟩
      = ([y / 128 % 2, y / 64 % 2, y / 32 % 2, y / 16 % 2,
          y / 8 % 2, y / 4 % 2, y / 2 % 2, y % 2], ⟨rest, y, 0, e⟩) := by
  simp [readBits, read_bit]

/-- The round-trip for inputs shorter than one byte, by cases on the shape. -/
theorem bit_roundtrip_short (bits : List Nat) (hb : ∀ b ∈ bits, b < 2)
    (hlen : bits.length < 8) :
    (readBits bits.length (mkReader (bitWriterOutput bits))).1 = bits := by
  rcases bits with _ | ⟨b0, _ | ⟨b1, _ | ⟨b2, _ | ⟨b3, _ | ⟨b4, _ | ⟨b5, _ | ⟨b6, _ | ⟨b7, rest⟩⟩⟩⟩⟩⟩⟩⟩
  · rfl
  · simp only [List.mem_singleton, forall_eq] at hb
    simp [bitWriterOutput, writeBits, write_bit, flushWriter, mkReader, readBits, read_bit]
    omega
  · simp only [List.mem_cons, forall_eq_or_imp, List.mem_singleton, forall_eq] at hb
    simp [bitWriterOutput, writeBits, write_bit, flushWriter, mkReader, readBits, read_bit]
    omega
  · simp only [List.mem_cons, forall_eq_or_imp, List.mem_singleton, forall_eq] at hb
    simp [bitWriterOutput, writeBits, write_bit, flushWriter, mkReader, readBits, read_bit]
    omega
  · simp only [List.mem_cons, forall_eq_or_imp, List.mem_singleton, forall_eq] at hb
    simp [bitWriterOutput, writeBits, write_bit, flushWriter, mkReader, readBits, read_bit]
    omega
  · simp only [List.mem_cons, forall_eq_or_imp, List.mem_singleton, forall_eq] at hb
    simp [bitWriterOutput, writeBits, write_bit, flushWriter, mkReader, readBits, read_bit]
    omega
  · simp only [List.mem_cons, forall_eq_or_imp, List.mem_singleton, forall_eq] at hb
    simp [bitWriterOutput, writeBits, write_bit, flushWriter, mkReader, readBits, read_bit]
    omega
  · simp only [List.mem_cons, forall_eq_or_imp, List.mem_singleton, forall_eq] at hb
    simp [bitWriterOutput, writeBits, write_bit, flushWriter, mkReader, readBits, read_bit]
    omega
  · simp at hlen
    omega

theorem bit_roundtrip_aux (L : Nat) :
    ∀ (bits : List Nat), bits.length ≤ L → (∀ b ∈ bits, b < 2) →
      (readBits bits.length (mkReader (bitWriterOutput bits))).1 = bits := by
  induction L with
  | zero =>
    intro bits hlen _
    have : bits = [] := List.length_eq_zero.mp (by omega)
    subst this
    rfl
  | succ L ih =>
    intro bits hlen hb
    rcases bits with _ | ⟨b0, _ | ⟨b1, _ | ⟨b2, _ | ⟨b3, _ | ⟨b4, _ | ⟨b5, _ | ⟨b6, _ |
      ⟨b7, rest⟩⟩⟩⟩⟩⟩⟩⟩
    · rfl
    · exact bit_roundtrip_short _ hb (by simp)
    · exact bit_roundtrip_short _ hb (by simp)
    · exact bit_roundtrip_short _ hb (by simp)
    · exact bit_roundtrip_short _ hb (by simp)
    · exact bit_roundtrip_short _ hb (by simp)
    · exact bit_roundtrip_short _ hb (by simp)
    · exact bit_roundtrip_short _ hb (by simp)
    · simp only [List.mem_cons, forall_eq_or_imp] at hb
      obtain ⟨h0, h1, h2, h3, h4, h5, h6, h7, hrest⟩ := hb
      simp only [List.length_cons] at hlen
      have hrest' : ∀ b ∈ rest, b < 2 := fun b hm => hrest b hm
      rw [bitWriterOutput_chunk]
      have hlen8 : (b0 :: b1 :: b2 :: b3 :: b4 :: b5 :: b6 :: b7 :: rest).length
          = 8 + rest.length := by simp; omega
      rw [hlen8, readBits_add]
      rw [show mkReader ((b0 % 2 * 128 + b1 % 2 * 64 + b2 % 2 * 32 + b3 % 2 * 16
          + b4 % 2 * 8 + b5 % 2 * 4 + b6 % 2 * 2 + b7 % 2) :: bitWriterOutput rest)
          = ⟨(b0 % 2 * 128 + b1 % 2 * 64 + b2 % 2 * 32 + b3 % 2 * 16
          + b4 % 2 * 8 + b5 % 2 * 4 + b6 % 2 * 2 + b7 % 2) :: bitWriterOutput rest,
            0, 0, false⟩ from rfl]
      rw [readBits_byte]
      have hread_rest : (readBits rest.length ⟨bitWriterOutput rest,
          b0 % 2 * 128 + b1 % 2 * 64 + b2 % 2 * 32 + b3 % 2 * 16
            + b4 % 2 * 8 + b5 % 2 * 4 + b6 % 2 * 2 + b7 % 2, 0, false⟩).1 = rest := by
        rw [readBits_fst_currentByte_irrel rest.length (bitWriterOutput rest) _ 0 false]
        exact ih rest (by omega) hrest
      simp only []
      rw [hread_rest]
      simp only [List.cons_append, List.nil_append, List.cons.injEq]
      refine ⟨?_, ?_, ?_, ?_, ?_, ?_, ?_, ?_, trivial⟩ <;> omega

/-- C8: writing any finite bit sequence with the bit writer and reading the
produced bytes back with the bit reader yields the original bits in order
(trailing padding is observable only through the EOF flag, which the second
part makes precise: once the reader has exhausted its input and its bit
buffer, every further `read_bit` returns 0 and only sets the sticky EOF
flag). -/
theorem bit_reader_writer_roundtrip (bits : List Nat) (hb : ∀ b ∈ bits, b < 2) :
    (readBits bits.length (mkReader (bitWriterOutput bits))).1 = bits ∧
    (∀ s : ReaderState, s.input = [] → s.bitsRemaining = 0 →
      read_bit s = (0, { s with reachedEof := true })) := by
  constructor
  · exact bit_roundtrip_aux bits.length bits (Nat.le_refl _) hb
  · intro s h1 h2
    rw [read_bit, if_pos h2]
    rw [show s.input = [] from h1]

/-- C8 witness: the three bits `1, 0, 1` round-trip through one padded byte
(`0xA0`). -/
theorem bit_reader_writer_roundtrip_witness :
    (∀ b ∈ [1, 0, 1], b < 2) ∧
    bitWriterOutput [1, 0, 1] = [160] ∧
    (readBits 3 (mkReader (bitWriterOutput [1, 0, 1]))).1 = [1, 0, 1] :=
  ⟨by decide, by decide,
    (bit_reader_writer_roundtrip [1, 0, 1] (by decide)).1⟩

/-! ## C4: the Huffman encoding of the empty input -/

/-- C4: Huffman encoding of the empty byte sequence produces exactly the magic
`HFMN`, the little-endian `u32` 257, the 257 little-endian `u32` frequencies
(all zero except index 256, which is 1, i.e. the bytes `replicate 1024 0`
followed by `1, 0, 0, 0`), and the single byte `0x00` (the one-bit EOS code
`0` zero-padded); decoding that stream yields the empty sequence. -/
theorem huffman_empty_encoding :
    huffman_encode [] = [72, 70, 77, 78] ++ write_u32_le 257
        ++ concatMap write_u32_le ((List.replicate 257 0).set 256 1) ++ [0] ∧
    write_u32_le 257 = [1, 1, 0, 0] ∧
    concatMap write_u32_le ((List.replicate 257 0).set 256 1)
      = List.replicate 1024 0 ++ [1, 0, 0, 0] ∧
    huffman_decode ([72, 70, 77, 78] ++ write_u32_le 257
        ++ concatMap write_u32_le ((List.replicate 257 0).set 256 1) ++ [0]) = .ok [] := by
  refine ⟨huffman_encode_nil, by decide, by decide, ?_⟩
  have h := huffman_decode_header ((List.replicate 257 0).set 256 1) [0] (by decide) (by decide)
  rw [h]
  rw [show build_tree ((List.replicate 257 0).set 256 1) = treeE from build_tree_freqE]
  rfl

/-! ## C10: Huffman decode with an all-zero frequency table -/

/-- C10: for every payload, a Huffman stream whose header carries 257 zero
frequencies decodes to a Corrupt-stream error with no output: the synthesized
tree is a bare childless EOS leaf at the root, so the first bit read descends
to a null child. -/
theorem huffman_allzero_freq_corrupt (payload : List Nat) :
    huffman_decode ([72, 70, 77, 78] ++ write_u32_le 257
        ++ concatMap write_u32_le (List.replicate 257 0) ++ payload) = .corrupt [] := by
  rw [huffman_decode_header (List.replicate 257 0) payload (by decide) (by decide)]
  rw [build_tree_zero]
  have hfuel : 8 * payload.length + 1024 = (8 * payload.length + 1023) + 1 := by omega
  rw [hfuel, walkLoop]
  simp [nodeLeft, nodeRight, leafE]

/-! ## C9: range decode of a header-only stream -/

/-- C9: a stream consisting of exactly a valid range-coder header (magic
`RCNC`, count 257, 257 frequency entries) with no payload bytes decodes
successfully to the empty byte sequence (the decoder returns before
constructing its interval state). -/
theorem range_header_only_decodes_empty (freq : List Nat) (hlen : freq.length = 257)
    (hv : ∀ v ∈ freq, v < 4294967296) :
    range_decode (range_header freq) = .ok [] := by
  have hcm : (concatMap write_u32_le freq).length = 4 * freq.length :=
    concatMap_write_length freq
  have hshape : range_header freq
      = ([82, 67, 78, 67] : List Nat) ++ (write_u32_le 257 ++ concatMap write_u32_le freq) := by
    rw [range_header, hlen]
    simp [List.append_assoc]
  have hlen_total : (range_header freq).length = 1036 := by
    rw [hshape]
    simp [hcm, hlen, write_u32_le]
  have hread4 : read_u32_le (range_header freq) 4 = some (257, 8) := by
    rw [hshape]
    have h : read_u32_le (([82, 67, 78, 67] : List Nat)
        ++ (write_u32_le 257 ++ concatMap write_u32_le freq))
        ([82, 67, 78, 67] : List Nat).length
        = some (257, ([82, 67, 78, 67] : List Nat).length + 4) :=
      read_u32_write [82, 67, 78, 67] 257 (concatMap write_u32_le freq) (by norm_num)
    exact h
  have hreadf : readFreqs (range_header freq) 8 257 = some (8 + 4 * 257, freq) := by
    have hshape2 : range_header freq
        = ([82, 67, 78, 67] ++ write_u32_le 257)
          ++ (concatMap write_u32_le freq ++ []) := by
      rw [hshape]
      simp [List.append_assoc]
    rw [hshape2]
    have h := readFreqs_write freq hv ([82, 67, 78, 67] ++ write_u32_le 257) []
    rw [show (([82, 67, 78, 67] ++ write_u32_le 257 : List Nat)).length = 8 from rfl, hlen] at h
    exact h
  have htake : (range_header freq).take 4 = [82, 67, 78, 67] := by
    rw [hshape]
    simp
  rw [range_decode, range_read_header]
  rw [if_neg (by omega)]
  rw [if_neg (by simp [htake])]
  rw [hread4]
  simp only [Option.some_bind]
  rw [if_neg (by norm_num)]
  rw [hreadf]
  simp only [Option.map_some', Option.elim_some]
  rw [if_neg (by simp [hlen])]
  simp [hlen_total]

/-- C9 witness: the header over the all-zero frequency table. -/
theorem range_header_only_decodes_empty_witness :
    (List.replicate 257 0).length = 257 ∧ (∀ v ∈ List.replicate 257 0, v < 4294967296) ∧
    range_decode (range_header (List.replicate 257 0)) = .ok [] :=
  ⟨by decide, by decide,
    range_header_only_decodes_empty (List.replicate 257 0) (by decide) (by decide)⟩

/-! ## C1: round-trip (the Huffman `u32` frequency counter wraps) -/

theorem getD_set_self (l : List Nat) (i v : Nat) (h : i < l.length) :
    (l.set i v).getD i 0 = v := by
  induction l generalizing i with
  | nil => simp at h
  | cons x xs ih =>
    cases i with
    | zero => rfl
    | succ j => simpa using ih j (by simpa using h)

theorem foldl_inc_replicate (n : Nat) :
    ∀ (t : List Nat) (a : Nat), a < 4294967296 → 0 < t.length →
      (List.replicate n 0).foldl (fun t b => t.set b ((t.getD b 0 + 1) % 4294967296))
          (t.set 0 a)
        = t.set 0 ((a + n) % 4294967296) := by
  induction n with
  | zero =>
    intro t a ha _
    simp [Nat.mod_eq_of_lt ha]
  | succ n ih =>
    intro t a ha ht
    rw [List.replicate_succ, List.foldl_cons]
    rw [getD_set_self t 0 a ht, List.set_set]
    rw [ih t ((a + 1) % 4294967296) (Nat.mod_lt _ (by norm_num)) ht]
    have : ((a + 1) % 4294967296 + n) % 4294967296 = (a + (n + 1)) % 4294967296 := by omega
    rw [this]

theorem countFreqs_replicate_wrap :
    countFreqs (List.replicate 4294967296 0) = ((List.replicate 257 0).set 0 0).set 256 1 := by
  rw [countFreqs, countFold]
  have h0 : List.replicate 257 0 = (List.replicate 257 0).set 0 0 := by decide
  conv =>
    lhs
    rw [h0]
  rw [foldl_inc_replicate 4294967296 (List.replicate 257 0) 0 (by norm_num) (by simp)]

theorem foldl_const_zero {α : Type} (g : α → Nat → α) (hg : ∀ w, g w 0 = w) :
    ∀ (n : Nat) (w : α), (List.replicate n 0).foldl g w = w := by
  intro n
  induction n with
  | zero => intro w; rfl
  | succ n ih =>
    intro w
    rw [List.replicate_succ, List.foldl_cons, hg]
    exact ih w

/-- The byte stream `compress_file` produces on `2^32` zero bytes: the `u32`
counter for byte 0 wraps to zero, so byte 0 is excluded from the tree, its
code is the empty string, and each input byte contributes no bits — the
output coincides with the encoding of the empty input. -/
theorem huffman_encode_replicate_wrap :
    huffman_encode (List.replicate 4294967296 0)
      = [72, 70, 77, 78] ++ write_u32_le 257 ++ concatMap write_u32_le freqE ++ [0] := by
  rw [huffman_encode]
  rw [countFreqs_replicate_wrap]
  rw [show ((List.replicate 257 0).set 0 0).set 256 1 = freqE from by decide]
  rw [foldl_const_zero
    (fun w b => writeBits w ((build_codes (build_tree freqE) [] (List.replicate 257 [])).getD b []))
    (fun w => rfl) 4294967296]
  rfl

/-- C1 failing input, proved on the code: the Huffman round trip fails on the
byte sequence of `2^32` zero bytes — the encoder reports the stream of the
empty input, which decodes to `[]`, not to the original sequence. -/
theorem roundtrip_fails_huffman_u32_wrap :
    huffman_decode (huffman_encode (List.replicate 4294967296 0)) = .ok [] ∧
    List.replicate 4294967296 0 ≠ ([] : List Nat) := by
  constructor
  · rw [huffman_encode_replicate_wrap]
    have h := huffman_decode_header freqE [0] (by decide) (by decide)
    rw [h, build_tree_freqE]
    rfl
  · intro hcontra
    have hlen := congrArg List.length hcontra
    rw [List.length_replicate, List.length_nil] at hlen
    exact absurd hlen (by norm_num)

/-! ## C5: determinism of the encoders and the Huffman tie-break -/

/-- Modelled from the spec: the priority-queue pop order — `a` pops before `b`
iff `a` has strictly smaller frequency, or equal frequency and strictly
smaller symbol ("symbol descending for tie-breaking — higher-symbol-index
loses ties"). -/
def specPopOrder (a b : HTree) : Prop :=
  nodeFreq a < nodeFreq b ∨ (nodeFreq a = nodeFreq b ∧ nodeSymbol a < nodeSymbol b)

/-- C5: each encoder is a pure function of its input byte sequence, so two
runs on the same input produce byte-identical output; and the code's
`NodeCmp` comparator realizes exactly the spec's tie-break order (`a` pops
before `b` iff `NodeCmp` ranks `b` below `a`). -/
theorem encode_deterministic :
    (∀ input : List Nat,
      rle_encode input = rle_encode input ∧ huffman_encode input = huffman_encode input ∧
      arith_encode input = arith_encode input ∧ range_encode input = range_encode input) ∧
    (∀ a b : HTree, specPopOrder a b ↔ nodeCmp b a = true) := by
  refine ⟨fun input => ⟨rfl, rfl, rfl, rfl⟩, ?_⟩
  intro a b
  by_cases h : nodeFreq b = nodeFreq a
  · simp [nodeCmp, specPopOrder, h]
  · simp [nodeCmp, specPopOrder, h]
    omega

end Encoding
